import Mathlib

/-!
Verification of the directory-tree disk-quota control subsystem of the
moby graph driver, together with the two vendored helpers present in the
tree (`statUnix` from go-winio's tar package and `diskUsage`/`diffUsage`
from containerd's fs package).

The quota engine itself (`projectquota.go`) is not part of the source
tree we were given (only its test file is), so the quota definitions
below are modelled from the specification document; each such definition
says so in its doc comment.  The tar and fs definitions are shallow
embeddings of the Go source files in the tree.
-/

set_option autoImplicit false

namespace Quota

/-- Modelled from the spec: the `Quota` value object of the quota
subsystem (`projectquota.go`, absent from the source tree), an unsigned
64-bit byte count representing a hard limit. -/
structure Quota where
  size : Nat
deriving DecidableEq, Repr

/-- Modelled from the spec: the error taxonomy of §7 of the spec
(`ResolveError`, `NotSupportedError`, `PrivilegeError`,
`NotManagedError`, `IOError`). -/
inductive QErr where
  | resolveError
  | notSupported
  | privilegeError
  | notManaged
  | ioError
deriving DecidableEq, Repr

/-- Modelled from the spec: the observable condition of a backing block
device as seen by the Quota Support Probe: whether the device is still
there, whether the caller holds the required capability, and whether
project quotas are enabled and enforced on it. -/
structure Device where
  present : Bool
  privileged : Bool
  supported : Bool
deriving DecidableEq, Repr

/-- Modelled from the spec: `hasQuotaSupport` (the Quota Support Probe,
§4.2): returns `false`, not an error, when project quotas are disabled
or unimplemented for the device; returns an error only for unexpected
failures (missing privilege, device gone). -/
def hasQuotaSupport (d : Device) : Except QErr Bool :=
  if !d.present then Except.error QErr.ioError
  else if !d.privileged then Except.error QErr.privilegeError
  else Except.ok d.supported

/-- Modelled from the spec: the state of one Quota Control instance
(§3) together with the filesystem state it manages.  `attr` models the
per-directory project-id extended attribute on the backing filesystem
(the authoritative binding; a tag of zero means unassigned, which we
represent as absence of an entry), `limits` models the per-project-id
block hard limit held by the kernel for the backing device, `quotas` is
the in-memory path→id cache, and `nextProjectID` the mutex-protected
next-id counter. -/
structure Control where
  backingFsDev : String
  supported : Bool
  nextProjectID : Nat
  quotas : List (String × Nat)
  attr : List (String × Nat)
  limits : List (Nat × Nat)
deriving DecidableEq, Repr

/-- First-match association-list lookup keyed by directory path; models
reading the project-id extended attribute of a directory (absence of an
entry is the reserved "unassigned" tag zero). -/
def lookupAttr : List (String × Nat) → String → Option Nat
  | [], _ => none
  | e :: rest, p => if e.1 = p then some e.2 else lookupAttr rest p

/-- First-match association-list lookup keyed by project id; models the
kernel's record of the block hard limit for a project id (zero when no
limit was ever set). -/
def lookupLimit : List (Nat × Nat) → Nat → Nat
  | [], _ => 0
  | e :: rest, id => if e.1 = id then e.2 else lookupLimit rest id

/-- Largest project id carried by any existing directory attribute;
models the scan of pre-existing project ids done at construction. -/
def maxAttrID (attrs : List (String × Nat)) : Nat :=
  List.foldl (fun m e => max m e.2) 0 attrs

/-- Modelled from the spec: `NewControl` (§6): builds a Quota Control
instance for one mounted filesystem, seeding the next-id counter above
both a configured floor and the highest project id already in use on the
device. -/
def NewControl (dev : String) (sup : Bool) (floor : Nat)
    (attrs : List (String × Nat)) (lims : List (Nat × Nat)) : Control :=
  { backingFsDev := dev
    supported := sup
    nextProjectID := max floor (maxAttrID attrs) + 1
    quotas := []
    attr := attrs
    limits := lims }

/-- Modelled from the spec: the Project ID Allocator's `assign` (§4.3):
if the path already carries a project-id attribute, return it (recording
it in the cache); otherwise take the next counter value, tag the path,
record the mapping and bump the counter. -/
def assign (c : Control) (p : String) : Nat × Control :=
  match lookupAttr c.attr p with
  | some id => (id, { c with quotas := (p, id) :: c.quotas })
  | none =>
      (c.nextProjectID,
        { c with
            nextProjectID := c.nextProjectID + 1
            attr := (p, c.nextProjectID) :: c.attr
            quotas := (p, c.nextProjectID) :: c.quotas })

/-- Modelled from the spec: the Project ID Allocator's `lookup` (§4.3):
reads the existing tag without allocating. -/
def lookup (c : Control) (p : String) : Option Nat :=
  lookupAttr c.attr p

/-- Modelled from the spec: `Control.SetQuota` (§4.4): fails with
`NotSupportedError` when the probe determined quotas are off for the
device; otherwise resolves or creates the project id for the path via
the allocator and overwrites the block hard limit for that id. -/
def SetQuota (c : Control) (p : String) (q : Quota) : Except QErr Unit × Control :=
  if c.supported then
    let r := assign c p
    (Except.ok (), { r.2 with limits := (r.1, q.size) :: r.2.limits })
  else
    (Except.error QErr.notSupported, c)

/-- Modelled from the spec: `Control.GetQuota` (§4.4): looks up the
project id, failing with `NotManagedError` when the path was never
assigned one by this instance or externally, and otherwise reports the
hard-limit size recorded for that id; it must not allocate. -/
def GetQuota (c : Control) (p : String) : Except QErr Quota × Control :=
  match lookupAttr c.attr p with
  | none => (Except.error QErr.notManaged, c)
  | some id => (Except.ok { size := lookupLimit c.limits id }, c)

/-- An operation performed against one Quota Control instance. -/
inductive Op where
  | set (p : String) (q : Quota)
  | get (p : String)
deriving DecidableEq, Repr

/-- State effect of one operation. -/
def stepOp (c : Control) (op : Op) : Control :=
  match op with
  | Op.set p q => (SetQuota c p q).2
  | Op.get p => (GetQuota c p).2

/-- State after a whole run of operations. -/
def run (c : Control) (ops : List Op) : Control :=
  List.foldl stepOp c ops

/-- Well-formedness of a Quota Control state: the counter is positive
(zero is the reserved unassigned value), every stored attribute id is
positive and below the counter, the attribute list is functional and
injective as a path→id binding, and the in-memory cache agrees with the
authoritative attributes. -/
def Inv (c : Control) : Prop :=
  1 ≤ c.nextProjectID ∧
  (∀ e ∈ c.attr, 0 < e.2 ∧ e.2 < c.nextProjectID) ∧
  (∀ e1 ∈ c.attr, ∀ e2 ∈ c.attr, e1.1 = e2.1 → e1.2 = e2.2) ∧
  (∀ e1 ∈ c.attr, ∀ e2 ∈ c.attr, e1.1 ≠ e2.1 → e1.2 ≠ e2.2) ∧
  (∀ e ∈ c.quotas, lookupAttr c.attr e.1 = some e.2)

/-- Relative invariant: `c` is a state reachable from `c0` by quota
operations.  The counter never decreased, every attribute either
pre-existed or carries an id at least as large as `c0`'s counter, and
every cached binding either was already readable from `c0`'s attributes
or was freshly allocated at or above `c0`'s counter. -/
def Reach (c0 c : Control) : Prop :=
  Inv c ∧
  c0.nextProjectID ≤ c.nextProjectID ∧
  (∀ e ∈ c.attr, e ∈ c0.attr ∨ c0.nextProjectID ≤ e.2) ∧
  (∀ e ∈ c.quotas, lookupAttr c0.attr e.1 = some e.2 ∨ c0.nextProjectID ≤ e.2)

end Quota

namespace Tar

/-- Shallow embedding of the part of `syscall.Stat_t` read by
`statUnix` (`stat_unix.go`): owner and group ids, and the raw
timestamps that the `statAtime`/`statCtime` helpers extract. -/
structure Stat_t where
  uid : Nat
  gid : Nat
  atim : Int
  ctim : Int
deriving DecidableEq, Repr

/-- The access time read from the stat structure (helper used by
`statUnix`). -/
def statAtime (s : Stat_t) : Int :=
  s.atim

/-- The change time read from the stat structure (helper used by
`statUnix`). -/
def statCtime (s : Stat_t) : Int :=
  s.ctim

/-- Shallow embedding of `tar.Header`: the four fields `statUnix`
writes plus the other scalar fields, so the frame condition can be
expressed.  Times are modelled as integers. -/
structure Header where
  name : String
  mode : Int
  uid : Int
  gid : Int
  size : Int
  modTime : Int
  typeflag : Nat
  linkname : String
  uname : String
  gname : String
  devmajor : Int
  devminor : Int
  accessTime : Int
  changeTime : Int
deriving DecidableEq, Repr

/-- Shallow embedding of `statUnix` (`stat_unix.go`).  The result of
the Go type assertion `fi.Sys().(*syscall.Stat_t)` is modelled as an
`Option Stat_t` (`none` when the assertion fails).  The Go `error`
return is modelled as `Option String`; the function pairs it with the
updated header. -/
def statUnix (sys : Option Stat_t) (h : Header) : Option String × Header :=
  match sys with
  | none => (none, h)
  | some s =>
      (none,
        { h with
            uid := (s.uid : Int)
            gid := (s.gid : Int)
            accessTime := statAtime s
            changeTime := statCtime s })

end Tar

namespace Fs

/-- `Usage` from containerd's fs package (`du_windows.go` computes only
the byte size; inodes are not supported on Windows). -/
structure Usage where
  Size : Int
deriving DecidableEq, Repr

/-- One visit delivered by `filepath.Walk` to the callback inside
`diskUsage`: either a successfully stat-ed entry of a given size, or a
walk error for some path, which the callback returns, aborting the
walk with that error. -/
inductive Visit where
  | entry (size : Int)
  | failure (e : String)
deriving DecidableEq, Repr

/-- The walk of one root as driven by `diskUsage`'s callback: visits
are processed in order, each entry's size is added to the shared
accumulator, and the first reported error aborts the walk. -/
def walkAccum : List Visit → Int → Except String Int
  | [], acc => Except.ok acc
  | Visit.entry n :: rest, acc => walkAccum rest (acc + n)
  | Visit.failure e :: _, _ => Except.error e

/-- Loop of `diskUsage` over the roots, threading the single `size`
accumulator shared by all walks; a failing walk makes the whole call
return the zero `Usage` and that error. -/
def diskUsageGo : List (List Visit) → Int → Usage × Option String
  | [], size => ({ Size := size }, none)
  | root :: rest, size =>
      match walkAccum root size with
      | Except.error e => ({ Size := 0 }, some e)
      | Except.ok size2 => diskUsageGo rest size2

/-- Shallow embedding of `diskUsage` (`du_windows.go`): each root is
modelled by the sequence of visits its directory walk produces. -/
def diskUsage (roots : List (List Visit)) : Usage × Option String :=
  diskUsageGo roots 0

/-- A walk succeeds when it reports no error. -/
def walkOk (root : List Visit) : Bool :=
  root.all fun v =>
    match v with
    | Visit.entry _ => true
    | Visit.failure _ => false

/-- Sum of the sizes of all entries visited under one root. -/
def rootSize (root : List Visit) : Int :=
  (root.map fun v =>
    match v with
    | Visit.entry n => n
    | Visit.failure _ => 0).sum

/-- The change kinds of containerd's fs package. -/
inductive ChangeKind where
  | unmodified
  | add
  | modify
  | delete
deriving DecidableEq, Repr

/-- One callback invocation delivered by `Changes` inside `diffUsage`:
either a change of some kind with the stat size of the changed file, or
an enumeration error, which the callback returns, aborting. -/
inductive ChangeEvent where
  | change (kind : ChangeKind) (size : Int)
  | failure (e : String)
deriving DecidableEq, Repr

/-- Body of `diffUsage`'s callback: the size is added for additions and
modifications only; every other kind leaves the accumulator alone. -/
def diffStep (size : Int) (k : ChangeKind) (n : Int) : Int :=
  if k = ChangeKind.add ∨ k = ChangeKind.modify then size + n else size

/-- Processing of the change stream by `diffUsage`'s callback: events
in order, first error aborts. -/
def diffAccum : List ChangeEvent → Int → Except String Int
  | [], acc => Except.ok acc
  | ChangeEvent.change k n :: rest, acc => diffAccum rest (diffStep acc k n)
  | ChangeEvent.failure e :: _, _ => Except.error e

/-- Shallow embedding of `diffUsage` (`du_windows.go`): the change
enumeration over the two trees is modelled by the list of callback
invocations it produces. -/
def diffUsage (events : List ChangeEvent) : Usage × Option String :=
  match diffAccum events 0 with
  | Except.error e => ({ Size := 0 }, some e)
  | Except.ok size => ({ Size := size }, none)

/-- The change enumeration succeeds (no failure event). -/
def eventsOk (events : List ChangeEvent) : Bool :=
  events.all fun v =>
    match v with
    | ChangeEvent.change _ _ => true
    | ChangeEvent.failure _ => false

/-- Sum of the file sizes over exactly the changes whose kind is add or
modify; deletions and every other kind contribute zero. -/
def addModSize (events : List ChangeEvent) : Int :=
  (events.map fun v =>
    match v with
    | ChangeEvent.change ChangeKind.add n => n
    | ChangeEvent.change ChangeKind.modify n => n
    | ChangeEvent.change ChangeKind.unmodified _ => 0
    | ChangeEvent.change ChangeKind.delete _ => 0
    | ChangeEvent.failure _ => 0).sum

end Fs

namespace Quota

theorem setQuota_supported (c : Control) (p : String) (q : Quota) :
    ((SetQuota c p q).2).supported = c.supported := by
  by_cases h : c.supported = true
  · cases hl : lookupAttr c.attr p <;> simp [SetQuota, h, assign, hl]
  · simp [SetQuota, h]

theorem getQuota_after_set (c : Control) (p : String) (q : Quota)
    (h : c.supported = true) :
    (GetQuota (SetQuota c p q).2 p).1 = Except.ok { size := q.size } := by
  cases hl : lookupAttr c.attr p with
  | some id => simp [SetQuota, h, assign, hl, GetQuota, lookupLimit]
  | none => simp [SetQuota, h, assign, hl, GetQuota, lookupAttr, lookupLimit]

theorem supported_of_setQuota_ok (c : Control) (p : String) (q : Quota)
    (hs : (SetQuota c p q).1 = Except.ok ()) : c.supported = true := by
  by_cases h : c.supported = true
  · exact h
  · simp [SetQuota, h] at hs

theorem lookupAttr_none_forall (l : List (String × Nat)) (k : String)
    (h : lookupAttr l k = none) : ∀ e ∈ l, e.1 ≠ k := by
  induction l with
  | nil => intro e he; cases he
  | cons a rest ih =>
      intro e he
      by_cases hak : a.1 = k
      · simp [lookupAttr, hak] at h
      · have h' : lookupAttr rest k = none := by simpa [lookupAttr, hak] using h
        rcases List.mem_cons.mp he with heq | ht
        · rw [heq]; exact hak
        · exact ih h' e ht

theorem mem_of_lookupAttr_some (l : List (String × Nat)) (k : String) (v : Nat)
    (h : lookupAttr l k = some v) : (k, v) ∈ l := by
  induction l with
  | nil => simp [lookupAttr] at h
  | cons a rest ih =>
      by_cases hak : a.1 = k
      · have hv : a.2 = v := by simpa [lookupAttr, hak] using h
        have hav : (k, v) = a := by
          obtain ⟨a1, a2⟩ := a
          simp only at hak hv
          rw [hak, hv]
        rw [hav]
        exact List.mem_cons_self _ _
      · have h' : lookupAttr rest k = some v := by simpa [lookupAttr, hak] using h
        exact List.mem_cons_of_mem _ (ih h')

theorem lookupAttr_some_of_mem (l : List (String × Nat)) (k : String) (v : Nat)
    (hfun : ∀ e1 ∈ l, ∀ e2 ∈ l, e1.1 = e2.1 → e1.2 = e2.2)
    (hm : (k, v) ∈ l) : lookupAttr l k = some v := by
  induction l with
  | nil => cases hm
  | cons a rest ih =>
      by_cases hak : a.1 = k
      · have hv : a.2 = v :=
          hfun a (List.mem_cons_self _ _) (k, v) hm hak
        simp [lookupAttr, hak, hv]
      · rcases List.mem_cons.mp hm with heq | ht
        · have : a.1 = k := by rw [← heq]
          exact absurd this hak
        · have hfun' : ∀ e1 ∈ rest, ∀ e2 ∈ rest, e1.1 = e2.1 → e1.2 = e2.2 :=
            fun e1 h1 e2 h2 =>
              hfun e1 (List.mem_cons_of_mem _ h1) e2 (List.mem_cons_of_mem _ h2)
          simpa [lookupAttr, hak] using ih hfun' ht

theorem lookupAttr_step_some (c : Control) (op : Op) (k : String) (v : Nat)
    (h : lookupAttr c.attr k = some v) :
    lookupAttr (stepOp c op).attr k = some v := by
  cases op with
  | get p => cases hl : lookupAttr c.attr p <;> simp [stepOp, GetQuota, hl, h]
  | set p q =>
      by_cases hs : c.supported = true
      · cases hl : lookupAttr c.attr p with
        | some id => simp [stepOp, SetQuota, hs, assign, hl, h]
        | none =>
            have hpk : p ≠ k := by
              intro hpk
              rw [hpk] at hl
              rw [hl] at h
              cases h
            simp [stepOp, SetQuota, hs, assign, hl, lookupAttr, hpk, h]
      · simp [stepOp, SetQuota, hs, h]

theorem lookupAttr_run_some (c : Control) (ops : List Op) (k : String) (v : Nat)
    (h : lookupAttr c.attr k = some v) :
    lookupAttr (run c ops).attr k = some v := by
  induction ops generalizing c with
  | nil => exact h
  | cons op rest ih =>
      simpa [run, List.foldl] using ih (stepOp c op) (lookupAttr_step_some c op k v h)

theorem inv_step (c : Control) (op : Op) (h : Inv c) :
    Inv (stepOp c op) ∧
    c.nextProjectID ≤ (stepOp c op).nextProjectID ∧
    (∀ e ∈ (stepOp c op).attr, e ∈ c.attr ∨ c.nextProjectID ≤ e.2) ∧
    (∀ e ∈ (stepOp c op).quotas,
        e ∈ c.quotas ∨ lookupAttr c.attr e.1 = some e.2 ∨ c.nextProjectID ≤ e.2) := by
  obtain ⟨h1, h2, h3, h4, h5⟩ := h
  cases op with
  | get p =>
      have hfr : stepOp c (Op.get p) = c := by
        cases hl : lookupAttr c.attr p <;> simp [stepOp, GetQuota, hl]
      rw [hfr]
      exact ⟨⟨h1, h2, h3, h4, h5⟩, le_refl _, fun e he => Or.inl he, fun e he => Or.inl he⟩
  | set p q =>
      by_cases hs : c.supported = true
      · cases hl : lookupAttr c.attr p with
        | some id =>
            have hstep : stepOp c (Op.set p q) =
                { c with
                    quotas := (p, id) :: c.quotas
                    limits := (id, q.size) :: c.limits } := by
              simp [stepOp, SetQuota, hs, assign, hl]
            rw [hstep]
            refine ⟨⟨h1, h2, h3, h4, ?_⟩, le_refl _, fun e he => Or.inl he, ?_⟩
            · intro e he
              rcases List.mem_cons.mp he with heq | ht
              · rw [heq]; exact hl
              · exact h5 e ht
            · intro e he
              rcases List.mem_cons.mp he with heq | ht
              · refine Or.inr (Or.inl ?_)
                rw [heq]; exact hl
              · exact Or.inl ht
        | none =>
            have hnone := lookupAttr_none_forall c.attr p hl
            have hstep : stepOp c (Op.set p q) =
                { c with
                    nextProjectID := c.nextProjectID + 1
                    attr := (p, c.nextProjectID) :: c.attr
                    quotas := (p, c.nextProjectID) :: c.quotas
                    limits := (c.nextProjectID, q.size) :: c.limits } := by
              simp [stepOp, SetQuota, hs, assign, hl]
            rw [hstep]
            refine ⟨⟨?_, ?_, ?_, ?_, ?_⟩, ?_, ?_, ?_⟩
            · simp only []
              omega
            · intro e he
              rcases List.mem_cons.mp he with heq | ht
              · rw [heq]
                simp only [Prod.snd]
                omega
              · have := h2 e ht
                simp only []
                omega
            · intro e1 he1 e2 he2 hkey
              rcases List.mem_cons.mp he1 with heq1 | ht1 <;>
                rcases List.mem_cons.mp he2 with heq2 | ht2
              · rw [heq1, heq2]
              · rw [heq1] at hkey
                exact absurd hkey.symm (hnone e2 ht2)
              · rw [heq2] at hkey
                exact absurd hkey (hnone e1 ht1)
              · exact h3 e1 ht1 e2 ht2 hkey
            · intro e1 he1 e2 he2 hkey
              rcases List.mem_cons.mp he1 with heq1 | ht1 <;>
                rcases List.mem_cons.mp he2 with heq2 | ht2
              · rw [heq1, heq2] at hkey
                exact absurd rfl hkey
              · have hb := (h2 e2 ht2).2
                rw [heq1]
                simp only [Prod.snd]
                omega
              · have hb := (h2 e1 ht1).2
                rw [heq2]
                simp only [Prod.snd]
                omega
              · exact h4 e1 ht1 e2 ht2 hkey
            · intro e he
              rcases List.mem_cons.mp he with heq | ht
              · rw [heq]
                simp [lookupAttr]
              · have hep : e.1 ≠ p := by
                  intro hep
                  have hx := h5 e ht
                  rw [hep, hl] at hx
                  cases hx
                have hcond : ((p, c.nextProjectID) : String × Nat).1 ≠ e.1 :=
                  fun hpe => hep hpe.symm
                simp only [lookupAttr, if_neg hcond]
                exact h5 e ht
            · simp only []
              omega
            · intro e he
              rcases List.mem_cons.mp he with heq | ht
              · refine Or.inr ?_
                rw [heq]
              · exact Or.inl ht
            · intro e he
              rcases List.mem_cons.mp he with heq | ht
              · refine Or.inr (Or.inr ?_)
                rw [heq]
              · exact Or.inl ht
      · have hfr : stepOp c (Op.set p q) = c := by simp [stepOp, SetQuota, hs]
        rw [hfr]
        exact ⟨⟨h1, h2, h3, h4, h5⟩, le_refl _, fun e he => Or.inl he, fun e he => Or.inl he⟩

theorem reach_refl (c0 : Control) (h0 : Inv c0) : Reach c0 c0 :=
  ⟨h0, le_refl _, fun e he => Or.inl he, fun e he => Or.inl (h0.2.2.2.2 e he)⟩

theorem reach_step (c0 c : Control) (op : Op) (h0 : Inv c0) (hr : Reach c0 c) :
    Reach c0 (stepOp c op) := by
  obtain ⟨hInv, hle, hattr, hq⟩ := hr
  obtain ⟨hInv', hle', hattr', hq'⟩ := inv_step c op hInv
  refine ⟨hInv', le_trans hle hle', ?_, ?_⟩
  · intro e he
    rcases hattr' e he with hmem | hge
    · exact hattr e hmem
    · exact Or.inr (le_trans hle hge)
  · intro e he
    rcases hq' e he with hmem | hlook | hge
    · exact hq e hmem
    · have hmem2 : (e.1, e.2) ∈ c.attr := mem_of_lookupAttr_some _ _ _ hlook
      rcases hattr (e.1, e.2) hmem2 with hmem0 | hge0
      · exact Or.inl (lookupAttr_some_of_mem _ _ _ h0.2.2.1 hmem0)
      · exact Or.inr hge0
    · exact Or.inr (le_trans hle hge)

theorem reach_run (c0 : Control) (ops : List Op) (h0 : Inv c0) :
    Reach c0 (run c0 ops) := by
  have key : ∀ c, Reach c0 c → Reach c0 (List.foldl stepOp c ops) := by
    induction ops with
    | nil => intro c hc; exact hc
    | cons op rest ih =>
        intro c hc
        exact ih (stepOp c op) (reach_step c0 c op h0 hc)
  exact key c0 (reach_refl c0 h0)

theorem attr_none_step (c : Control) (op : Op) (d : String)
    (hd : lookupAttr c.attr d = none) (hop : ∀ q, op ≠ Op.set d q) :
    lookupAttr (stepOp c op).attr d = none := by
  cases op with
  | get p => cases hl : lookupAttr c.attr p <;> simp [stepOp, GetQuota, hl, hd]
  | set p q =>
      have hpd : p ≠ d := by
        intro h
        exact hop q (by rw [h])
      by_cases h : c.supported = true
      · cases hl : lookupAttr c.attr p with
        | some id => simp [stepOp, SetQuota, h, assign, hl, hd]
        | none => simp [stepOp, SetQuota, h, assign, hl, lookupAttr, hpd, hd]
      · simp [stepOp, SetQuota, h, hd]

theorem attr_none_run (c : Control) (ops : List Op) (d : String)
    (hd : lookupAttr c.attr d = none) (hops : ∀ q, Op.set d q ∉ ops) :
    lookupAttr (run c ops).attr d = none := by
  induction ops generalizing c with
  | nil => exact hd
  | cons op rest ih =>
      have h1 : ∀ q, op ≠ Op.set d q := by
        intro q h
        exact hops q (by rw [h]; exact List.mem_cons_self _ _)
      have h2 : ∀ q, Op.set d q ∉ rest := by
        intro q h
        exact hops q (List.mem_cons_of_mem _ h)
      simpa [run, List.foldl] using ih (stepOp c op) (attr_none_step c op d hd h1) h2

/-- C1: for every directory `d` and quota `q` with `q.size > 0`, if
`SetQuota d q` succeeds then a subsequent `GetQuota d` on that instance
succeeds and the returned quota's size equals `q.size`. -/
theorem setQuota_getQuota_roundtrip (c : Control) (d : String) (q : Quota)
    (hq : 0 < q.size) (hs : (SetQuota c d q).1 = Except.ok ()) :
    (GetQuota (SetQuota c d q).2 d).1 = Except.ok { size := q.size } :=
  getQuota_after_set c d q (supported_of_setQuota_ok c d q hs)

/-- Witness for C1 at a concrete instance: a fresh supported control,
directory `sub`, quota 10 MiB. -/
theorem setQuota_getQuota_roundtrip_witness :
    (GetQuota (SetQuota (NewControl "dev" true 0 [] []) "sub" { size := 10485760 }).2 "sub").1
      = Except.ok { size := 10485760 } :=
  setQuota_getQuota_roundtrip (NewControl "dev" true 0 [] []) "sub" { size := 10485760 }
    (by decide) (by rfl)

/-- C3: for every directory `d` on which no `SetQuota` was ever
performed — neither by this instance (no `set d` operation in the run)
nor externally via a project-id attribute (no attribute entry for `d` in
the initial state) — `GetQuota d` fails with `NotManagedError`. -/
theorem getQuota_unmanaged_fails (c0 : Control) (ops : List Op) (d : String)
    (hd : lookupAttr c0.attr d = none) (hops : ∀ q, Op.set d q ∉ ops) :
    (GetQuota (run c0 ops) d).1 = Except.error QErr.notManaged := by
  simp [GetQuota, attr_none_run c0 ops d hd hops]

/-- Witness for C3 at a concrete instance: a run that manages a
different directory, then queries `sub`. -/
theorem getQuota_unmanaged_fails_witness :
    (GetQuota (run (NewControl "dev" true 0 [] []) [Op.set "other" { size := 7 }]) "sub").1
      = Except.error QErr.notManaged :=
  getQuota_unmanaged_fails (NewControl "dev" true 0 [] []) [Op.set "other" { size := 7 }] "sub"
    (by rfl)
    (by
      intro q h
      simp only [List.mem_singleton, Op.set.injEq] at h
      exact absurd h.1 (by decide))

/-- C4: on a device where project quotas are disabled or unimplemented
the probe `hasQuotaSupport` returns `false` with no error, it returns an
error only for unexpected failures (vanished device, missing privilege),
and `SetQuota` against an unsupported device fails with
`NotSupportedError`. -/
theorem quota_disabled_behavior :
    (∀ d : Device, d.present = true → d.privileged = true → d.supported = false →
        hasQuotaSupport d = Except.ok false) ∧
    (∀ d : Device, d.present = false →
        hasQuotaSupport d = Except.error QErr.ioError) ∧
    (∀ d : Device, d.present = true → d.privileged = false →
        hasQuotaSupport d = Except.error QErr.privilegeError) ∧
    (∀ (c : Control) (p : String) (q : Quota), c.supported = false →
        (SetQuota c p q).1 = Except.error QErr.notSupported) := by
  refine ⟨?_, ?_, ?_, ?_⟩
  · intro d h1 h2 h3
    simp [hasQuotaSupport, h1, h2, h3]
  · intro d h1
    simp [hasQuotaSupport, h1]
  · intro d h1 h2
    simp [hasQuotaSupport, h1, h2]
  · intro c p q h
    simp [SetQuota, h]

/-- Witness for C4 at concrete instances: a present, privileged device
with quotas off, and a control over an unsupported device. -/
theorem quota_disabled_behavior_witness :
    hasQuotaSupport { present := true, privileged := true, supported := false }
      = Except.ok false ∧
    (SetQuota (NewControl "dev" false 0 [] []) "sub" { size := 10485760 }).1
      = Except.error QErr.notSupported :=
  ⟨quota_disabled_behavior.1 { present := true, privileged := true, supported := false }
      rfl rfl rfl,
   quota_disabled_behavior.2.2.2 (NewControl "dev" false 0 [] []) "sub" { size := 10485760 }
      rfl⟩

/-- C5: `SetQuota` is idempotent in effect — setting the same value
twice yields the same observable limit as setting it once — and a
second `SetQuota` with a new value `q2` overwrites the limit (not a
sum), so `GetQuota` afterwards reports the last successfully set
value. -/
theorem setQuota_idempotent_overwrite (c : Control) (p : String) (q q2 : Quota) :
    (GetQuota (SetQuota (SetQuota c p q).2 p q).2 p).1
      = (GetQuota (SetQuota c p q).2 p).1 ∧
    ((SetQuota c p q).1 = Except.ok () →
      (GetQuota (SetQuota (SetQuota c p q).2 p q2).2 p).1
        = Except.ok { size := q2.size }) := by
  constructor
  · by_cases h : c.supported = true
    · rw [getQuota_after_set _ _ _ h,
        getQuota_after_set _ _ _ (by rw [setQuota_supported]; exact h)]
    · have h2 : (SetQuota c p q).2 = c := by simp [SetQuota, h]
      simp only [h2]
  · intro hs
    exact getQuota_after_set _ _ _
      (by rw [setQuota_supported]; exact supported_of_setQuota_ok c p q hs)

/-- Witness for C5 at a concrete instance: set 3 then 5 on the same
directory; the retrieved limit is 5. -/
theorem setQuota_idempotent_overwrite_witness :
    (GetQuota (SetQuota (SetQuota (NewControl "dev" true 0 [] []) "sub" { size := 3 }).2
        "sub" { size := 5 }).2 "sub").1 = Except.ok { size := 5 } :=
  (setQuota_idempotent_overwrite (NewControl "dev" true 0 [] []) "sub"
    { size := 3 } { size := 5 }).2 (by rfl)

/-- C6: `GetQuota` never allocates: whether it succeeds or fails, the
allocator's counter, the path→id mapping, and indeed the whole state are
exactly as they were before the call. -/
theorem getQuota_frame (c : Control) (p : String) :
    (GetQuota c p).2.nextProjectID = c.nextProjectID ∧
    (GetQuota c p).2.quotas = c.quotas ∧
    (GetQuota c p).2 = c := by
  cases hl : lookupAttr c.attr p <;> simp [GetQuota, hl]

/-- C2: over any run of operations on one Quota Control instance, the
state stays well formed, the counter never decreases, project ids of
managed directories are pairwise distinct (`d1 ≠ d2 → id d1 ≠ id d2`),
zero is reserved (every assigned id is positive), every managed id
either pre-existed as an attribute or strictly exceeds the maximum id
discovered at construction, and an id once assigned to a directory is
recalled unchanged by every later run (never reused or decremented). -/
theorem allocator_ids_unique_monotone (dev : String) (sup : Bool) (floor : Nat)
    (attrs : List (String × Nat)) (lims : List (Nat × Nat)) (ops : List Op)
    (h0 : Inv (NewControl dev sup floor attrs lims)) :
    Inv (run (NewControl dev sup floor attrs lims) ops) ∧
    (NewControl dev sup floor attrs lims).nextProjectID
      ≤ (run (NewControl dev sup floor attrs lims) ops).nextProjectID ∧
    (∀ e1 ∈ (run (NewControl dev sup floor attrs lims) ops).quotas,
        ∀ e2 ∈ (run (NewControl dev sup floor attrs lims) ops).quotas,
          e1.1 ≠ e2.1 → e1.2 ≠ e2.2) ∧
    (∀ e ∈ (run (NewControl dev sup floor attrs lims) ops).quotas, 0 < e.2) ∧
    (∀ e ∈ (run (NewControl dev sup floor attrs lims) ops).quotas,
        lookupAttr attrs e.1 = some e.2 ∨ maxAttrID attrs < e.2) ∧
    (∀ ops2 : List Op, ∀ e ∈ (run (NewControl dev sup floor attrs lims) ops).quotas,
        lookupAttr (run (run (NewControl dev sup floor attrs lims) ops) ops2).attr e.1
          = some e.2) := by
  obtain ⟨hInv, hle, hattr, hq⟩ := reach_run (NewControl dev sup floor attrs lims) ops h0
  obtain ⟨g1, g2, g3, g4, g5⟩ := hInv
  refine ⟨⟨g1, g2, g3, g4, g5⟩, hle, ?_, ?_, ?_, ?_⟩
  · intro e1 he1 e2 he2 hne
    have m1 := mem_of_lookupAttr_some _ _ _ (g5 e1 he1)
    have m2 := mem_of_lookupAttr_some _ _ _ (g5 e2 he2)
    exact g4 (e1.1, e1.2) m1 (e2.1, e2.2) m2 hne
  · intro e he
    have m := mem_of_lookupAttr_some _ _ _ (g5 e he)
    exact (g2 (e.1, e.2) m).1
  · intro e he
    rcases hq e he with hlk | hge
    · exact Or.inl hlk
    · refine Or.inr ?_
      have hmax : maxAttrID attrs < (NewControl dev sup floor attrs lims).nextProjectID := by
        have hmr := le_max_right floor (maxAttrID attrs)
        simp only [NewControl]
        omega
      exact lt_of_lt_of_le hmax hge
  · intro ops2 e he
    exact lookupAttr_run_some _ ops2 _ _ (g5 e he)

/-- Witness for C2 at a concrete instance: a fresh control managing two
distinct directories. -/
theorem allocator_ids_unique_monotone_witness :
    Inv (NewControl "dev" true 0 [] []) ∧
    (∀ e1 ∈ (run (NewControl "dev" true 0 [] [])
        [Op.set "a" { size := 5 }, Op.set "b" { size := 6 }]).quotas,
      ∀ e2 ∈ (run (NewControl "dev" true 0 [] [])
        [Op.set "a" { size := 5 }, Op.set "b" { size := 6 }]).quotas,
        e1.1 ≠ e2.1 → e1.2 ≠ e2.2) :=
  ⟨by unfold Inv; decide,
   (allocator_ids_unique_monotone "dev" true 0 [] []
      [Op.set "a" { size := 5 }, Op.set "b" { size := 6 }]
      (by unfold Inv; decide)).2.2.1⟩

end Quota

namespace Tar

/-- C8: `statUnix` never returns a non-nil error; when the stat
structure is absent (failed type assertion) the header is entirely
unchanged, and otherwise exactly the `uid`, `gid`, `accessTime` and
`changeTime` fields are set, every other header field being left
unchanged. -/
theorem statUnix_no_error_frame (s : Stat_t) (h : Header) :
    (statUnix none h).1 = none ∧
    (statUnix (some s) h).1 = none ∧
    (statUnix none h).2 = h ∧
    (statUnix (some s) h).2.uid = (s.uid : Int) ∧
    (statUnix (some s) h).2.gid = (s.gid : Int) ∧
    (statUnix (some s) h).2.accessTime = statAtime s ∧
    (statUnix (some s) h).2.changeTime = statCtime s ∧
    (statUnix (some s) h).2.name = h.name ∧
    (statUnix (some s) h).2.mode = h.mode ∧
    (statUnix (some s) h).2.size = h.size ∧
    (statUnix (some s) h).2.modTime = h.modTime ∧
    (statUnix (some s) h).2.typeflag = h.typeflag ∧
    (statUnix (some s) h).2.linkname = h.linkname ∧
    (statUnix (some s) h).2.uname = h.uname ∧
    (statUnix (some s) h).2.gname = h.gname ∧
    (statUnix (some s) h).2.devmajor = h.devmajor ∧
    (statUnix (some s) h).2.devminor = h.devminor :=
  ⟨rfl, rfl, rfl, rfl, rfl, rfl, rfl, rfl, rfl, rfl, rfl, rfl, rfl, rfl, rfl, rfl, rfl⟩

end Tar

namespace Fs

theorem walkAccum_ok (root : List Visit) (hok : walkOk root = true) :
    ∀ acc, walkAccum root acc = Except.ok (acc + rootSize root) := by
  induction root with
  | nil => intro acc; simp [walkAccum, rootSize]
  | cons v rest ih =>
      cases v with
      | entry n =>
          intro acc
          have hok' : walkOk rest = true := by simpa [walkOk] using hok
          simp only [walkAccum]
          rw [ih hok']
          simp only [rootSize, List.map_cons, List.sum_cons]
          congr 1
          ring
      | failure e => simp [walkOk] at hok

theorem walkAccum_error_any (root : List Visit) (e : String) :
    ∀ acc acc', walkAccum root acc = Except.error e →
      walkAccum root acc' = Except.error e := by
  induction root with
  | nil => intro acc acc' hx; simp [walkAccum] at hx
  | cons v rest ih =>
      cases v with
      | entry n =>
          intro acc acc' hx
          simp only [walkAccum] at hx ⊢
          exact ih _ _ hx
      | failure e0 =>
          intro acc acc' hx
          simp only [walkAccum] at hx ⊢
          exact hx

theorem diskUsageGo_ok (roots : List (List Visit)) (h : ∀ r ∈ roots, walkOk r = true) :
    ∀ size, diskUsageGo roots size
      = ({ Size := size + (roots.map rootSize).sum }, none) := by
  induction roots with
  | nil => intro size; simp [diskUsageGo]
  | cons root rest ih =>
      intro size
      have h1 : walkOk root = true := h root (List.mem_cons_self _ _)
      have h2 : ∀ r ∈ rest, walkOk r = true := fun r hr => h r (List.mem_cons_of_mem _ hr)
      simp only [diskUsageGo, walkAccum_ok root h1 size]
      rw [ih h2]
      simp only [List.map_cons, List.sum_cons]
      congr 2
      ring

theorem diskUsageGo_error (bad : List Visit) (rest : List (List Visit)) (e : String)
    (herr : walkAccum bad 0 = Except.error e) :
    ∀ (good : List (List Visit)), (∀ r ∈ good, walkOk r = true) →
      ∀ size, diskUsageGo (good ++ bad :: rest) size = ({ Size := 0 }, some e) := by
  intro good
  induction good with
  | nil =>
      intro _ size
      simp only [List.nil_append, diskUsageGo, walkAccum_error_any bad e 0 size herr]
  | cons g gs ih =>
      intro hgood size
      have h1 : walkOk g = true := hgood g (List.mem_cons_self _ _)
      simp only [List.cons_append, diskUsageGo, walkAccum_ok g h1 size]
      exact ih (fun r hr => hgood r (List.mem_cons_of_mem _ hr)) _

/-- C9: `diskUsage` is additive over its roots: when every walk
succeeds it returns the sum of the sizes of all entries visited under
each root, which equals the sum of the single-root results; for no
roots it returns the zero `Usage` with no error; and on the first
failing walk it returns the zero `Usage` together with that error. -/
theorem diskUsage_additive :
    (∀ roots : List (List Visit), (∀ r ∈ roots, walkOk r = true) →
        diskUsage roots = ({ Size := (roots.map rootSize).sum }, none) ∧
        (diskUsage roots).1.Size
          = (roots.map fun r => (diskUsage [r]).1.Size).sum) ∧
    diskUsage [] = ({ Size := 0 }, none) ∧
    (∀ (good : List (List Visit)) (bad : List Visit) (rest : List (List Visit)) (e : String),
        (∀ r ∈ good, walkOk r = true) →
        walkAccum bad 0 = Except.error e →
        diskUsage (good ++ bad :: rest) = ({ Size := 0 }, some e)) := by
  refine ⟨?_, by simp [diskUsage, diskUsageGo], ?_⟩
  · intro roots h
    have h1 : diskUsage roots = ({ Size := (roots.map rootSize).sum }, none) := by
      simpa [diskUsage] using diskUsageGo_ok roots h 0
    refine ⟨h1, ?_⟩
    have hsingle : ∀ r ∈ roots, (diskUsage [r]).1.Size = rootSize r := by
      intro r hr
      have hs := diskUsageGo_ok [r]
        (by
          intro x hx
          have hxr : x = r := List.mem_singleton.mp hx
          rw [hxr]
          exact h r hr) 0
      simp [diskUsage, hs]
    rw [List.map_congr_left hsingle, h1]
  · intro good bad rest e hgood herr
    have hx := diskUsageGo_error bad rest e herr good hgood 0
    simpa [diskUsage] using hx

/-- Witness for C9 at concrete inputs: two successful roots summing to
nine, and a failing second root aborting with its error. -/
theorem diskUsage_additive_witness :
    diskUsage [[Visit.entry 2, Visit.entry 3], [Visit.entry 4]]
      = ({ Size := 9 }, none) ∧
    diskUsage [[Visit.entry 1], [Visit.failure "boom"], [Visit.entry 5]]
      = ({ Size := 0 }, some "boom") :=
  ⟨((diskUsage_additive.1 [[Visit.entry 2, Visit.entry 3], [Visit.entry 4]]
      (by decide)).1).trans (by decide),
   (diskUsage_additive.2.2 [[Visit.entry 1]] [Visit.failure "boom"] [[Visit.entry 5]]
      "boom" (by decide) (by rfl))⟩

theorem diffAccum_ok (events : List ChangeEvent) (hok : eventsOk events = true) :
    ∀ acc, diffAccum events acc = Except.ok (acc + addModSize events) := by
  induction events with
  | nil => intro acc; simp [diffAccum, addModSize]
  | cons v rest ih =>
      cases v with
      | change k n =>
          intro acc
          have hok' : eventsOk rest = true := by simpa [eventsOk] using hok
          simp only [diffAccum]
          rw [ih hok']
          congr 1
          cases k <;>
            simp [diffStep, addModSize, List.map_cons, List.sum_cons] <;> ring
      | failure e => simp [eventsOk] at hok

theorem diffAccum_append_error (e : String) (rest : List ChangeEvent) :
    ∀ (good : List ChangeEvent), eventsOk good = true →
      ∀ acc, diffAccum (good ++ ChangeEvent.failure e :: rest) acc = Except.error e := by
  intro good
  induction good with
  | nil => intro _ acc; simp [diffAccum]
  | cons v gs ih =>
      cases v with
      | change k n =>
          intro hok acc
          have hok' : eventsOk gs = true := by simpa [eventsOk] using hok
          simp only [List.cons_append, diffAccum]
          exact ih hok' _
      | failure e0 => intro hok acc; simp [eventsOk] at hok

/-- C10: `diffUsage` counts only additions and modifications: when the
change enumeration succeeds the returned `Usage.Size` is the sum of the
file sizes over exactly the add and modify changes (deletions and all
other kinds contribute zero), and on an enumeration error it returns
the zero `Usage` and that error. -/
theorem diffUsage_counts_add_modify :
    (∀ events : List ChangeEvent, eventsOk events = true →
        diffUsage events = ({ Size := addModSize events }, none)) ∧
    (∀ (good : List ChangeEvent) (e : String) (rest : List ChangeEvent),
        eventsOk good = true →
        diffUsage (good ++ ChangeEvent.failure e :: rest) = ({ Size := 0 }, some e)) := by
  constructor
  · intro events hok
    simp [diffUsage, diffAccum_ok events hok 0]
  · intro good e rest hok
    simp [diffUsage, diffAccum_append_error e rest good hok 0]

/-- Witness for C10 at concrete inputs: an add of three and a modify of
four count, a delete and an unmodified entry do not; a failure event
aborts with its error. -/
theorem diffUsage_counts_add_modify_witness :
    diffUsage [ChangeEvent.change ChangeKind.add 3,
        ChangeEvent.change ChangeKind.delete 100,
        ChangeEvent.change ChangeKind.modify 4,
        ChangeEvent.change ChangeKind.unmodified 50]
      = ({ Size := 7 }, none) ∧
    diffUsage [ChangeEvent.change ChangeKind.add 3, ChangeEvent.failure "enum"]
      = ({ Size := 0 }, some "enum") :=
  ⟨(diffUsage_counts_add_modify.1 [ChangeEvent.change ChangeKind.add 3,
      ChangeEvent.change ChangeKind.delete 100,
      ChangeEvent.change ChangeKind.modify 4,
      ChangeEvent.change ChangeKind.unmodified 50] (by decide)).trans (by decide),
   diffUsage_counts_add_modify.2 [ChangeEvent.change ChangeKind.add 3] "enum" []
      (by decide)⟩

end Fs
